import Mathlib

/-
Verification development for the stochastically forced 2D turbulence driver
(scripts/dns/incomp_forced/simulation.py) and its shell-forcing generator
module (imported as forcing.incomp_shell_2d by the driver; the module body
is not part of the visible sources, so it is modelled from the spec).

Conventions of the embedding:
  - real scalars of the forcing module are modelled as rationals, so that
    every definition is executable and decidable;
  - a complex number is a pair (re, im) of rationals;
  - the wavenumber grid is a list of integer mode pairs (nx, ny); the
    physical wavenumber of a mode is (nx * dkx, ny * dky);
  - shell membership |sqrt(kx^2+ky^2) - kf| <= kfw is computed by the
    equivalent squared test (proved equivalent to the square-root form
    below, for the positive parameters that construction guarantees).
-/

/-- Complex scalar as a pair of rationals (re, im). -/
abbrev Cplx : Type := ℚ × ℚ

/-- Complex conjugate. -/
def Cplx.conj (z : Cplx) : Cplx := (z.1, -z.2)

/-- Negation. -/
def Cplx.negc (z : Cplx) : Cplx := (-z.1, -z.2)

/-- Addition. -/
def Cplx.add (z w : Cplx) : Cplx := (z.1 + w.1, z.2 + w.2)

/-- Multiplication by a real (rational) scalar. -/
def Cplx.smul (r : ℚ) (z : Cplx) : Cplx := (r * z.1, r * z.2)

/-- Integer mode-index pair (nx, ny) identifying a wavenumber of the grid. -/
abbrev Mode : Type := ℤ × ℤ

/-- Modelled from the spec: encoding of an integer into a natural number,
used to feed mode indices into the counter-based random function. -/
def encodeInt (z : ℤ) : ℕ := if 0 ≤ z then 2 * z.toNat else 2 * (-z).toNat - 1

/-- Cantor pairing of two naturals. -/
def pairNat (a b : ℕ) : ℕ := (a + b) * (a + b + 1) / 2 + b

/-- Modelled from the spec: one mixing round of the counter-based
pseudo-random function (a small Lehmer-style step). -/
def mixStep (x : ℕ) : ℕ := (x * 75 + 74) % 65537

/-- Modelled from the spec (design notes): the per-mode random draw is a pure
function of the seed, the draw counter and the global mode identity (nx, ny),
never of local array position, so that results are partition independent.
Returns the complex amplitude for one mode. -/
def prf (seed t : ℕ) (n : Mode) : Cplx :=
  let h := mixStep (pairNat (pairNat seed t) (pairNat (encodeInt n.1) (encodeInt n.2)))
  let h2 := mixStep h
  ((h : ℚ) / 65537 - 1 / 2, (h2 : ℚ) / 65537 - 1 / 2)

/-- Canonical representative of a conjugate pair of modes: the member with
ny > 0, or ny = 0 and nx > 0. Exactly one of n, -n is canonical unless n = 0. -/
def canonicalMode (n : Mode) : Bool := decide (0 < n.2) || (decide (n.2 = 0) && decide (0 < n.1))

/-- Modelled from the spec (algorithm step 4): only the canonical member of a
conjugate mode pair draws randomness; the amplitude at the other member is
derived as minus the conjugate, and the self-conjugate mode n = 0 gets 0.
The sign convention makes the final coefficient field Hermitian, because the
divergence-free direction (-ky, kx) is odd under negation of the mode. -/
def amp (seed t : ℕ) (n : Mode) : Cplx :=
  if canonicalMode n then prf seed t n
  else if canonicalMode (-n) then Cplx.negc (Cplx.conj (prf seed t (-n)))
  else (0, 0)

/-- Modelled from the spec: error raised by generator construction. -/
inductive ForcingError : Type
  | InvalidParameter : ForcingError
deriving DecidableEq, Repr

/-- Modelled from the spec: the ShellForcingGenerator state. The four band
parameters and the seed are fixed at construction; count is the state of the
random stream, advanced by each draw. -/
structure ShellForcingGenerator : Type where
  kf : ℚ
  kfw : ℚ
  dkx : ℚ
  dky : ℚ
  seed : ℕ
  count : ℕ
deriving DecidableEq, Repr

/-- Modelled from the spec (section 7): shell membership of a mode, by the
squared test equivalent to |sqrt((nx dkx)^2 + (ny dky)^2) - kf| <= kfw. -/
def inShell (g : ShellForcingGenerator) (n : Mode) : Bool :=
  let s : ℚ := ((n.1 : ℚ) * g.dkx) ^ 2 + ((n.2 : ℚ) * g.dky) ^ 2
  decide (s ≤ (g.kf + g.kfw) ^ 2) && (decide (g.kf ≤ g.kfw) || decide ((g.kf - g.kfw) ^ 2 ≤ s))

/-- Modelled from the spec (algorithm steps 1 to 3): the coefficient pair
(Fx, Fy) at one mode: zero outside the shell, otherwise the random complex
amplitude directed along the unique divergence-free direction (-ky, kx). -/
def coeff (g : ShellForcingGenerator) (t : ℕ) (n : Mode) : Cplx × Cplx :=
  if inShell g n then
    let a := amp g.seed t n
    (Cplx.smul (-((n.2 : ℚ) * g.dky)) a, Cplx.smul ((n.1 : ℚ) * g.dkx) a)
  else ((0, 0), (0, 0))

/-- Modelled from the spec: construction contract of forcing.incomp_shell_2d.
Fails with InvalidParameter when any of kf, kfw, dkx, dky is non-positive;
otherwise returns a fresh generator with the stream counter at zero. -/
def incomp_shell_2d (kf kfw dkx dky : ℚ) (seed : ℕ) :
    Except ForcingError ShellForcingGenerator :=
  if kf ≤ 0 ∨ kfw ≤ 0 ∨ dkx ≤ 0 ∨ dky ≤ 0 then Except.error ForcingError.InvalidParameter
  else Except.ok ⟨kf, kfw, dkx, dky, seed, 0⟩

/-- Modelled from the spec: draw(kx_grid, ky_grid). Maps every mode of the
grid to its coefficient pair using the current stream counter, and returns
the generator with the stream advanced by one draw. -/
def draw (g : ShellForcingGenerator) (grid : List Mode) :
    List (Cplx × Cplx) × ShellForcingGenerator :=
  (grid.map (coeff g g.count), { g with count := g.count + 1 })

/-- Sanity evaluation: a fresh generator on a small grid. The mode (0, 0) is
in the shell for kf = kfw = 1 but its coefficient is zero (zero direction);
the mode (5, 0) lies outside the shell; the mode (1, 0) carries a nonzero
amplitude purely along the y component, since its wavenumber is (1, 0). -/
theorem draw_sanity :
    (draw ⟨1, 1, 1, 1, 0, 0⟩ [(0, 0), (5, 0), (1, 0)]).1 =
      [((0, 0), (0, 0)), ((0, 0), (0, 0)),
        ((0, 0), (-64039 / 131074, 46961 / 131074))] := by
  with_unfolding_all rfl

/-
Driver embedding (scripts/dns/incomp_forced/simulation.py). The driver sets
dkx = dky = 2 pi / L, constructs the generator once by calling
forcing.incomp_shell_2d before the loop, and then, while the solver is ok,
each iteration draws a fresh forcing realization, assigns it to the spectral
coefficients of Fx and Fy, scales both in grid space by (epsilon / dt)**0.5
(scaling the grid values of a field by a real scalar scales its spectral
coefficients by the same scalar, by linearity of the transform), and takes
exactly one solver step. Real scalars of the driver are modelled as ℝ.
-/

namespace Driver

/-- Wavenumber spacing set by the driver: dkx = 2 pi / L (line 22). -/
noncomputable def dkx (L : ℝ) : ℝ := 2 * Real.pi / L

/-- Wavenumber spacing set by the driver: dky = 2 pi / L (line 22, the same
assignment dkx = dky = 2 * np.pi / L). -/
noncomputable def dky (L : ℝ) : ℝ := 2 * Real.pi / L

end Driver

/-- Complex value with real components, for the scaled force fields. -/
abbrev CplxR : Type := ℝ × ℝ

/-- Inclusion of the rational spectral coefficients into the driver reals. -/
def toR (z : Cplx) : CplxR := ((z.1 : ℝ), (z.2 : ℝ))

/-- Scalar multiplication of a complex coefficient by a real scalar. -/
def smulR (r : ℝ) (z : CplxR) : CplxR := (r * z.1, r * z.2)

/-- State carried through the main loop: the generator (with its stream),
the solver iteration counter, and the two force coefficient fields. -/
structure SimState : Type where
  gen : ShellForcingGenerator
  iteration : ℕ
  Fx : List CplxR
  Fy : List CplxR

/-- Observable events of one run of the main loop: a draw of the forcing
(recording the stream counter consumed) and a solver step (recording the
iteration at which it was taken). -/
inductive Event : Type
  | drawE : ℕ → Event
  | stepE : ℕ → Event
deriving DecidableEq, Repr

/-- One iteration of the main loop (lines 85 to 91): draw a realization with
the current stream, assign it to the force fields with both components scaled
by the same scalar (epsilon / dt)**0.5, then advance the solver by one step. -/
noncomputable def loopBody (grid : List Mode) (eps dt : ℝ) (st : SimState) : SimState :=
  let r := draw st.gen grid
  let s := Real.sqrt (eps / dt)
  { gen := r.2
    iteration := st.iteration + 1
    Fx := r.1.map (fun c => smulR s (toR c.1))
    Fy := r.1.map (fun c => smulR s (toR c.2)) }

/-- The main loop run for a given number of iterations, recording the trace
of draw and step events in order. -/
noncomputable def run (grid : List Mode) (eps dt : ℝ) (st : SimState) :
    ℕ → SimState × List Event
  | 0 => (st, [])
  | n + 1 =>
    let st' := loopBody grid eps dt st
    let rest := run grid eps dt st' n
    (rest.1, Event.drawE st.gen.count :: Event.stepE st.iteration :: rest.2)

/-- Number of draw events in a trace. -/
def countDraws (tr : List Event) : ℕ :=
  (tr.filter (fun e => match e with | Event.drawE _ => true | Event.stepE _ => false)).length

/-- Number of step events in a trace. -/
def countSteps (tr : List Event) : ℕ :=
  (tr.filter (fun e => match e with | Event.drawE _ => false | Event.stepE _ => true)).length

/-- The alternating draw-then-step event pattern: each iteration first draws
with a fresh stream counter, then takes exactly one solver step. -/
def patternTrace (c i : ℕ) : ℕ → List Event
  | 0 => []
  | n + 1 => Event.drawE c :: Event.stepE i :: patternTrace (c + 1) (i + 1) n

/-- The whole program: construct the generator once, before any stepping,
from the parameters (lines 22 and 23), then run the main loop. -/
noncomputable def runSim (kf kfw dkx dky : ℚ) (seed : ℕ) (grid : List Mode)
    (eps dt : ℝ) (n : ℕ) : Except ForcingError (SimState × List Event) :=
  (incomp_shell_2d kf kfw dkx dky seed).map (fun g => run grid eps dt ⟨g, 0, [], []⟩ n)

/-
Helper lemmas about the forcing generator.
-/

theorem incomp_shell_2d_ok (kf kfw dkx dky : ℚ) (seed : ℕ) (g : ShellForcingGenerator)
    (hg : incomp_shell_2d kf kfw dkx dky seed = Except.ok g) :
    g = ⟨kf, kfw, dkx, dky, seed, 0⟩ ∧ 0 < kf ∧ 0 < kfw ∧ 0 < dkx ∧ 0 < dky := by
  unfold incomp_shell_2d at hg
  split at hg
  · exact absurd hg (by simp)
  · rename_i h
    push_neg at h
    obtain ⟨h1, h2, h3, h4⟩ := h
    exact ⟨(Except.ok.injEq _ _).mp hg |>.symm, h1, h2, h3, h4⟩

theorem inShell_iff_sqrt (g : ShellForcingGenerator) (n : Mode)
    (hkf : 0 < g.kf) (hkfw : 0 < g.kfw) :
    inShell g n = true ↔
      |Real.sqrt ((((n.1 : ℚ) * g.dkx : ℚ) : ℝ) ^ 2 + (((n.2 : ℚ) * g.dky : ℚ) : ℝ) ^ 2) -
        (g.kf : ℝ)| ≤ (g.kfw : ℝ) := by
  have hkfR : (0 : ℝ) < (g.kf : ℝ) := by exact_mod_cast hkf
  have hkfwR : (0 : ℝ) < (g.kfw : ℝ) := by exact_mod_cast hkfw
  set a : ℚ := (n.1 : ℚ) * g.dkx with ha
  set b : ℚ := (n.2 : ℚ) * g.dky with hb
  have hS0 : (0 : ℝ) ≤ (a : ℝ) ^ 2 + (b : ℝ) ^ 2 := by positivity
  have hcast : ((a ^ 2 + b ^ 2 : ℚ) : ℝ) = (a : ℝ) ^ 2 + (b : ℝ) ^ 2 := by push_cast; ring
  have hup : Real.sqrt ((a : ℝ) ^ 2 + (b : ℝ) ^ 2) ≤ (g.kf : ℝ) + (g.kfw : ℝ) ↔
      a ^ 2 + b ^ 2 ≤ (g.kf + g.kfw) ^ 2 := by
    rw [Real.sqrt_le_left (by positivity)]
    rw [← hcast]
    constructor
    · intro h; exact_mod_cast h
    · intro h; exact_mod_cast h
  have hlo : (g.kf : ℝ) - (g.kfw : ℝ) ≤ Real.sqrt ((a : ℝ) ^ 2 + (b : ℝ) ^ 2) ↔
      (g.kf ≤ g.kfw ∨ (g.kf - g.kfw) ^ 2 ≤ a ^ 2 + b ^ 2) := by
    rcases le_or_lt g.kf g.kfw with hle | hlt
    · have hleR : (g.kf : ℝ) ≤ (g.kfw : ℝ) := by exact_mod_cast hle
      constructor
      · intro _; exact Or.inl hle
      · intro _
        exact le_trans (by linarith) (Real.sqrt_nonneg _)
    · have hltR : (g.kfw : ℝ) < (g.kf : ℝ) := by exact_mod_cast hlt
      rw [Real.le_sqrt (by linarith) hS0]
      constructor
      · intro h
        refine Or.inr ?_
        have : (((g.kf - g.kfw) ^ 2 : ℚ) : ℝ) ≤ ((a ^ 2 + b ^ 2 : ℚ) : ℝ) := by
          rw [hcast]; push_cast; push_cast at h; linarith
        exact_mod_cast this
      · intro h
        rcases h with h | h
        · exact absurd h (not_le.mpr hlt)
        · have : (((g.kf - g.kfw) ^ 2 : ℚ) : ℝ) ≤ ((a ^ 2 + b ^ 2 : ℚ) : ℝ) := by exact_mod_cast h
          rw [hcast] at this; push_cast at this ⊢; linarith
  constructor
  · intro h
    simp only [inShell, Bool.and_eq_true, Bool.or_eq_true, decide_eq_true_eq] at h
    rw [abs_le]
    obtain ⟨h1, h2⟩ := h
    constructor
    · have := hlo.mpr h2; linarith
    · have := hup.mpr h1; linarith
  · intro h
    rw [abs_le] at h
    simp only [inShell, Bool.and_eq_true, Bool.or_eq_true, decide_eq_true_eq]
    constructor
    · exact hup.mp (by linarith [h.2])
    · exact hlo.mp (by linarith [h.1])

theorem mode_trichotomy (n : Mode) :
    (canonicalMode n = true ∧ canonicalMode (-n) = false) ∨
    (canonicalMode n = false ∧ canonicalMode (-n) = true) ∨
    (n = 0 ∧ canonicalMode n = false ∧ canonicalMode (-n) = false) := by
  obtain ⟨x, y⟩ := n
  simp only [canonicalMode, Prod.neg_mk, Bool.or_eq_true, Bool.and_eq_true, decide_eq_true_eq,
    Bool.or_eq_false_iff, Bool.and_eq_false_iff, decide_eq_false_iff_not, not_lt, Prod.mk_eq_zero]
  omega

theorem conj_conj (z : Cplx) : Cplx.conj (Cplx.conj z) = z := by
  simp [Cplx.conj]

theorem negc_negc (z : Cplx) : Cplx.negc (Cplx.negc z) = z := by
  simp [Cplx.negc]

theorem amp_neg (seed t : ℕ) (n : Mode) :
    amp seed t (-n) = Cplx.negc (Cplx.conj (amp seed t n)) := by
  rcases mode_trichotomy n with ⟨h1, h2⟩ | ⟨h1, h2⟩ | ⟨h0, h1, h2⟩
  · simp [amp, h1, h2, neg_neg]
  · simp [amp, h1, h2, neg_neg, Cplx.negc, Cplx.conj]
  · subst h0
    simp [amp, h1, Cplx.negc, Cplx.conj]

theorem inShell_neg (g : ShellForcingGenerator) (n : Mode) :
    inShell g (-n) = inShell g n := by
  have h : (((-n : Mode).1 : ℚ) * g.dkx) ^ 2 + (((-n : Mode).2 : ℚ) * g.dky) ^ 2 =
      ((n.1 : ℚ) * g.dkx) ^ 2 + ((n.2 : ℚ) * g.dky) ^ 2 := by
    simp only [Prod.fst_neg, Prod.snd_neg]
    push_cast
    ring
  simp only [inShell]
  rw [h]

theorem coeff_neg (g : ShellForcingGenerator) (t : ℕ) (n : Mode) :
    coeff g t (-n) = (Cplx.conj (coeff g t n).1, Cplx.conj (coeff g t n).2) := by
  rw [coeff, coeff, inShell_neg]
  by_cases h : inShell g n = true
  · simp only [h, if_true, amp_neg]
    simp only [Cplx.smul, Cplx.negc, Cplx.conj, Prod.fst_neg, Prod.snd_neg, Prod.mk.injEq]
    push_cast
    refine ⟨⟨by ring, by ring⟩, by ring, by ring⟩
  · simp only [Bool.not_eq_true] at h
    simp [h, Cplx.conj]

theorem coeff_real_of_self_conj (g : ShellForcingGenerator) (t : ℕ) (n : Mode)
    (h : n = -n) : (coeff g t n).1.2 = 0 ∧ (coeff g t n).2.2 = 0 := by
  obtain ⟨x, y⟩ := n
  rw [Prod.neg_mk, Prod.mk.injEq] at h
  have hx : x = 0 := by omega
  have hy : y = 0 := by omega
  subst hx hy
  rw [coeff]
  split
  · simp [Cplx.smul]
  · simp

theorem coeff_div_free (g : ShellForcingGenerator) (t : ℕ) (n : Mode) :
    Cplx.add (Cplx.smul ((n.1 : ℚ) * g.dkx) (coeff g t n).1)
      (Cplx.smul ((n.2 : ℚ) * g.dky) (coeff g t n).2) = (0, 0) := by
  rw [coeff]
  split
  · simp only [Cplx.add, Cplx.smul, Prod.mk.injEq]
    exact ⟨by ring, by ring⟩
  · simp [Cplx.add, Cplx.smul]

theorem coeff_outside (g : ShellForcingGenerator) (t : ℕ) (n : Mode)
    (h : inShell g n = false) : coeff g t n = ((0, 0), (0, 0)) := by
  simp [coeff, h]

/-
Helper lemmas about the driver loop.
-/

theorem loopBody_gen (grid : List Mode) (eps dt : ℝ) (st : SimState) :
    (loopBody grid eps dt st).gen = { st.gen with count := st.gen.count + 1 } := rfl

theorem run_trace (grid : List Mode) (eps dt : ℝ) :
    ∀ (n : ℕ) (st : SimState),
      (run grid eps dt st n).2 = patternTrace st.gen.count st.iteration n := by
  intro n
  induction n with
  | zero => intro st; rfl
  | succ n ih =>
    intro st
    simp only [run, patternTrace]
    rw [ih]
    rfl

theorem run_gen (grid : List Mode) (eps dt : ℝ) :
    ∀ (n : ℕ) (st : SimState),
      (run grid eps dt st n).1.gen = { st.gen with count := st.gen.count + n } := by
  intro n
  induction n with
  | zero => intro st; rfl
  | succ n ih =>
    intro st
    simp only [run]
    rw [ih]
    simp only [loopBody_gen]
    congr 1
    omega

theorem countDraws_pattern : ∀ (n c i : ℕ), countDraws (patternTrace c i n) = n := by
  intro n
  induction n with
  | zero => intro c i; rfl
  | succ n ih =>
    intro c i
    simp only [patternTrace, countDraws, List.filter] at ih ⊢
    rw [List.length_cons, ih]

theorem countSteps_pattern : ∀ (n c i : ℕ), countSteps (patternTrace c i n) = n := by
  intro n
  induction n with
  | zero => intro c i; rfl
  | succ n ih =>
    intro c i
    simp only [patternTrace, countSteps, List.filter] at ih ⊢
    rw [List.length_cons, ih]

/-
Claim theorems.
-/

/-- C1: for a fixed seed and generator parameters, splitting the wavenumber
grid into two sub-grids and calling draw separately on each, then recombining
the two results, yields exactly the same coefficients as calling draw once on
the full grid, and leaves the generator in the same advanced state. -/
theorem draw_partition_independent (g : ShellForcingGenerator) (g1 g2 : List Mode) :
    (draw g (g1 ++ g2)).1 = (draw g g1).1 ++ (draw g g2).1 ∧
    (draw g (g1 ++ g2)).2 = (draw g g1).2 :=
  ⟨by simp [draw], rfl⟩

/-- C2: two generators constructed with identical parameters
(kf, kfw, dkx, dky, seed) produce identical output on the same grid. -/
theorem draw_reproducible (kf kfw dkx dky : ℚ) (seed : ℕ) (g1 g2 : ShellForcingGenerator)
    (h1 : incomp_shell_2d kf kfw dkx dky seed = Except.ok g1)
    (h2 : incomp_shell_2d kf kfw dkx dky seed = Except.ok g2)
    (grid : List Mode) : draw g1 grid = draw g2 grid := by
  rw [(incomp_shell_2d_ok _ _ _ _ _ _ h1).1, (incomp_shell_2d_ok _ _ _ _ _ _ h2).1]

theorem draw_reproducible_witness :
    draw ⟨1, 1, 1, 1, 0, 0⟩ [(1, 0)] = draw ⟨1, 1, 1, 1, 0, 0⟩ [(1, 0)] :=
  draw_reproducible 1 1 1 1 0 ⟨1, 1, 1, 1, 0, 0⟩ ⟨1, 1, 1, 1, 0, 0⟩
    (by with_unfolding_all rfl) (by with_unfolding_all rfl) [(1, 0)]

/-- C3: at every grid point whose wavenumber magnitude lies outside the
forcing shell, that is kfw < |sqrt(kx^2 + ky^2) - kf|, draw returns exactly
0 + 0i for both components, for every seed and every grid. -/
theorem draw_zero_outside_shell (kf kfw dkx dky : ℚ) (seed : ℕ)
    (g : ShellForcingGenerator)
    (hg : incomp_shell_2d kf kfw dkx dky seed = Except.ok g)
    (grid : List Mode) (j : ℕ) (n : Mode) (hn : grid[j]? = some n)
    (hout : (kfw : ℝ) <
      |Real.sqrt ((((n.1 : ℚ) * dkx : ℚ) : ℝ) ^ 2 + (((n.2 : ℚ) * dky : ℚ) : ℝ) ^ 2) -
        (kf : ℝ)|) :
    ((draw g grid).1)[j]? = some ((0, 0), (0, 0)) := by
  obtain ⟨hgeq, hkf, hkfw, _, _⟩ := incomp_shell_2d_ok _ _ _ _ _ _ hg
  subst hgeq
  have hsh : inShell ⟨kf, kfw, dkx, dky, seed, 0⟩ n = false := by
    cases hb : inShell ⟨kf, kfw, dkx, dky, seed, 0⟩ n with
    | false => rfl
    | true =>
      have := (inShell_iff_sqrt ⟨kf, kfw, dkx, dky, seed, 0⟩ n hkf hkfw).mp hb
      exact absurd this (not_le.mpr hout)
  simp [draw, List.getElem?_map, hn, coeff_outside _ _ _ hsh]

theorem draw_zero_outside_shell_witness :
    ((draw ⟨1, 1, 1, 1, 0, 0⟩ [(5, 0)]).1)[0]? = some ((0, 0), (0, 0)) := by
  refine draw_zero_outside_shell 1 1 1 1 0 ⟨1, 1, 1, 1, 0, 0⟩ (by with_unfolding_all rfl)
    [(5, 0)] 0 (5, 0) (by with_unfolding_all rfl) ?_
  have h : ((((((5, 0) : Mode).1 : ℚ) * 1 : ℚ) : ℝ) ^ 2 +
      (((((5, 0) : Mode).2 : ℚ) * 1 : ℚ) : ℝ) ^ 2) = 5 ^ 2 := by
    push_cast
    ring
  rw [h, Real.sqrt_sq (by norm_num)]
  norm_num

/-- C4: at every in-shell grid point of a realization returned by draw, the
divergence kx Fx + ky Fy is exactly the zero complex number (hence below any
fixed numerical tolerance), for any seed. -/
theorem draw_divergence_free (kf kfw dkx dky : ℚ) (seed : ℕ)
    (g : ShellForcingGenerator)
    (hg : incomp_shell_2d kf kfw dkx dky seed = Except.ok g)
    (grid : List Mode) (j : ℕ) (n : Mode) (hn : grid[j]? = some n)
    (_hin : |Real.sqrt ((((n.1 : ℚ) * dkx : ℚ) : ℝ) ^ 2 + (((n.2 : ℚ) * dky : ℚ) : ℝ) ^ 2) -
        (kf : ℝ)| ≤ (kfw : ℝ))
    (F : Cplx × Cplx) (hF : ((draw g grid).1)[j]? = some F) :
    Cplx.add (Cplx.smul ((n.1 : ℚ) * dkx) F.1) (Cplx.smul ((n.2 : ℚ) * dky) F.2) = (0, 0) := by
  obtain ⟨hgeq, _, _, _, _⟩ := incomp_shell_2d_ok _ _ _ _ _ _ hg
  subst hgeq
  simp only [draw, List.getElem?_map, hn, Option.map_some'] at hF
  have hFeq : F = coeff ⟨kf, kfw, dkx, dky, seed, 0⟩ 0 n := by
    exact ((Option.some.injEq _ _).mp hF).symm
  rw [hFeq]
  exact coeff_div_free ⟨kf, kfw, dkx, dky, seed, 0⟩ 0 n

theorem draw_divergence_free_witness :
    Cplx.add (Cplx.smul ((((1, 0) : Mode).1 : ℚ) * 1)
        (((0, 0), ((-64039 : ℚ) / 131074, (46961 : ℚ) / 131074)) : Cplx × Cplx).1)
      (Cplx.smul ((((1, 0) : Mode).2 : ℚ) * 1)
        (((0, 0), ((-64039 : ℚ) / 131074, (46961 : ℚ) / 131074)) : Cplx × Cplx).2) = (0, 0) := by
  refine draw_divergence_free 1 1 1 1 0 ⟨1, 1, 1, 1, 0, 0⟩ (by with_unfolding_all rfl)
    [(1, 0)] 0 (1, 0) (by with_unfolding_all rfl) ?_
    ((0, 0), ((-64039 : ℚ) / 131074, (46961 : ℚ) / 131074)) (by with_unfolding_all rfl)
  have h : ((((((1, 0) : Mode).1 : ℚ) * 1 : ℚ) : ℝ) ^ 2 +
      (((((1, 0) : Mode).2 : ℚ) * 1 : ℚ) : ℝ) ^ 2) = 1 ^ 2 := by
    push_cast
    ring
  rw [h, Real.sqrt_sq (by norm_num)]
  norm_num

/-- C5: for every realization returned by draw and every wavenumber pair
(k, -k) both present in the grid, the coefficient at -k is the complex
conjugate of the coefficient at k, and at every self-conjugate mode (k = -k)
the coefficient is real. -/
theorem draw_hermitian (g : ShellForcingGenerator) (grid : List Mode)
    (i j : ℕ) (ni nj : Mode) (Fi Fj : Cplx × Cplx)
    (hni : grid[i]? = some ni) (hnj : grid[j]? = some nj) (hneg : nj = -ni)
    (hFi : ((draw g grid).1)[i]? = some Fi) (hFj : ((draw g grid).1)[j]? = some Fj) :
    Fj = (Cplx.conj Fi.1, Cplx.conj Fi.2) ∧ (ni = -ni → Fi.1.2 = 0 ∧ Fi.2.2 = 0) := by
  simp only [draw, List.getElem?_map, hni, hnj, Option.map_some'] at hFi hFj
  have hFieq : Fi = coeff g g.count ni := ((Option.some.injEq _ _).mp hFi).symm
  have hFjeq : Fj = coeff g g.count nj := ((Option.some.injEq _ _).mp hFj).symm
  subst hFieq hFjeq hneg
  exact ⟨coeff_neg g g.count ni, fun h => coeff_real_of_self_conj g g.count ni h⟩

theorem draw_hermitian_witness :
    (((0, 0), (0, 0)) : Cplx × Cplx) =
      (Cplx.conj (((0, 0), (0, 0)) : Cplx × Cplx).1, Cplx.conj (((0, 0), (0, 0)) : Cplx × Cplx).2) ∧
    (((0, 0) : Mode) = -((0, 0) : Mode) →
      ((((0, 0), (0, 0)) : Cplx × Cplx)).1.2 = 0 ∧ ((((0, 0), (0, 0)) : Cplx × Cplx)).2.2 = 0) :=
  draw_hermitian ⟨1, 1, 1, 1, 0, 0⟩ [((0, 0) : Mode)] 0 0 (0, 0) (0, 0)
    ((0, 0), (0, 0)) ((0, 0), (0, 0)) (by with_unfolding_all rfl) (by with_unfolding_all rfl)
    (by decide) (by with_unfolding_all rfl) (by with_unfolding_all rfl)

/-- C6: constructing the generator fails with InvalidParameter exactly when at
least one of kf, kfw, dkx, dky is non-positive; with all four positive,
construction succeeds. -/
theorem incomp_shell_2d_validation (kf kfw dkx dky : ℚ) (seed : ℕ) :
    (incomp_shell_2d kf kfw dkx dky seed = Except.error ForcingError.InvalidParameter ↔
      kf ≤ 0 ∨ kfw ≤ 0 ∨ dkx ≤ 0 ∨ dky ≤ 0) ∧
    (0 < kf → 0 < kfw → 0 < dkx → 0 < dky →
      incomp_shell_2d kf kfw dkx dky seed = Except.ok ⟨kf, kfw, dkx, dky, seed, 0⟩) := by
  unfold incomp_shell_2d
  constructor
  · split_ifs with h
    · simp [h]
    · simp [h]
  · intro h1 h2 h3 h4
    rw [if_neg]
    push_neg
    exact ⟨h1, h2, h3, h4⟩

theorem incomp_shell_2d_validation_witness :
    incomp_shell_2d 1 1 1 1 7 = Except.ok ⟨1, 1, 1, 1, 7, 0⟩ :=
  (incomp_shell_2d_validation 1 1 1 1 7).2 one_pos one_pos one_pos one_pos

/-- C7: in every iteration of the main loop, exactly one draw is made and
then exactly one solver step is taken: the event trace of a run of any length
is exactly the alternating draw-then-step pattern, each draw consuming a
fresh stream counter, so draws and steps are equinumerous and no step occurs
without a fresh realization drawn first in the same iteration. -/
theorem main_loop_draw_then_step (grid : List Mode) (eps dt : ℝ) (st : SimState) (n : ℕ) :
    (run grid eps dt st n).2 = patternTrace st.gen.count st.iteration n ∧
    countDraws (run grid eps dt st n).2 = n ∧
    countSteps (run grid eps dt st n).2 = n := by
  refine ⟨run_trace grid eps dt n st, ?_, ?_⟩ <;> rw [run_trace grid eps dt n st]
  · exact countDraws_pattern n _ _
  · exact countSteps_pattern n _ _

/-- C8: the generator is created exactly once, by construction before the
loop; over any run its parameters and seed are never changed, and its stream
counter is advanced exactly once per draw, so it equals the number of loop
iterations, which equals the number of draw events in the trace. -/
theorem generator_created_once (kf kfw dkx dky : ℚ) (seed : ℕ)
    (g0 : ShellForcingGenerator)
    (hg : incomp_shell_2d kf kfw dkx dky seed = Except.ok g0)
    (grid : List Mode) (eps dt : ℝ) (n : ℕ) :
    (run grid eps dt ⟨g0, 0, [], []⟩ n).1.gen = ⟨kf, kfw, dkx, dky, seed, n⟩ ∧
    countDraws (run grid eps dt ⟨g0, 0, [], []⟩ n).2 = n := by
  obtain ⟨hgeq, _, _, _, _⟩ := incomp_shell_2d_ok _ _ _ _ _ _ hg
  subst hgeq
  constructor
  · rw [run_gen]
    simp
  · rw [run_trace]
    exact countDraws_pattern n _ _

theorem generator_created_once_witness :
    (run [] 1 1 ⟨⟨1, 1, 1, 1, 0, 0⟩, 0, [], []⟩ 2).1.gen = ⟨1, 1, 1, 1, 0, 2⟩ ∧
    countDraws (run [] 1 1 ⟨⟨1, 1, 1, 1, 0, 0⟩, 0, [], []⟩ 2).2 = 2 :=
  generator_created_once 1 1 1 1 0 ⟨1, 1, 1, 1, 0, 0⟩ (by with_unfolding_all rfl) [] 1 1 2

/-- C9: in every iteration, after the drawn spectral coefficients are
assigned, both force components are multiplied by the same real scalar
(eps / dt) ** 0.5, whose square recovers eps / dt, so the applied amplitude
scales as the square root of eps / dt and both components scale identically. -/
theorem force_scaling (grid : List Mode) (eps dt : ℝ) (st : SimState) (j : ℕ)
    (c : Cplx × Cplx) (hc : ((draw st.gen grid).1)[j]? = some c) :
    (loopBody grid eps dt st).Fx[j]? = some (smulR (Real.sqrt (eps / dt)) (toR c.1)) ∧
    (loopBody grid eps dt st).Fy[j]? = some (smulR (Real.sqrt (eps / dt)) (toR c.2)) ∧
    (0 ≤ eps / dt → Real.sqrt (eps / dt) ^ 2 = eps / dt) := by
  refine ⟨?_, ?_, fun h => Real.sq_sqrt h⟩ <;>
    simp [loopBody, List.getElem?_map, hc]

theorem force_scaling_witness :
    (loopBody [(1, 0)] 1 1 ⟨⟨1, 1, 1, 1, 0, 0⟩, 0, [], []⟩).Fx[0]? =
      some (smulR (Real.sqrt (1 / 1)) (toR (0, 0))) ∧
    (loopBody [(1, 0)] 1 1 ⟨⟨1, 1, 1, 1, 0, 0⟩, 0, [], []⟩).Fy[0]? =
      some (smulR (Real.sqrt (1 / 1)) (toR ((-64039 : ℚ) / 131074, (46961 : ℚ) / 131074))) ∧
    ((0 : ℝ) ≤ 1 / 1 → Real.sqrt (1 / 1) ^ 2 = 1 / 1) :=
  force_scaling [(1, 0)] 1 1 ⟨⟨1, 1, 1, 1, 0, 0⟩, 0, [], []⟩ 0
    ((0, 0), ((-64039 : ℚ) / 131074, (46961 : ℚ) / 131074)) (by with_unfolding_all rfl)

/-- C10: the driver sets equal wavenumber spacings dkx = dky = 2 pi / L, so
only the isotropic-spacing case is exercised, and both spacings are positive
whenever L is positive. -/
theorem driver_isotropic_spacing (L : ℝ) :
    Driver.dkx L = Driver.dky L ∧ (0 < L → 0 < Driver.dkx L ∧ 0 < Driver.dky L) := by
  refine ⟨rfl, fun hL => ?_⟩
  have h : 0 < 2 * Real.pi / L := div_pos (by positivity) hL
  exact ⟨h, h⟩

theorem driver_isotropic_spacing_witness :
    Driver.dkx 1 = Driver.dky 1 ∧ (0 < Driver.dkx 1 ∧ 0 < Driver.dky 1) :=
  ⟨(driver_isotropic_spacing 1).1, (driver_isotropic_spacing 1).2 one_pos⟩
